import Mathlib

/-!
Verification of the go-airgap chunk reassembly engine and message framing
protocol, shallowly embedded from the Go source (`chunks.go`, the exported
`Chunks` API, and the `AirGap`/`Message` envelope code).

Bytes are modelled as `Nat` (Go `byte` values, always `< 256`); fixed-width
Go integers are modelled as `Nat` with explicit `% 2^w` at the points where
the source performs a conversion.  Go slices of bytes are `List Nat`; a
`[][]byte` whose entries may be `nil` is `List (Option (List Nat))` with
`none` standing for a `nil` slice.  A Go function that can return an error
is modelled with an explicit result type; a Go runtime panic (index or
slice bounds out of range) is modelled as a distinguished `panic`-outcome
constructor, produced exactly where the source would index or slice out of
bounds (assuming, as usual, `cap = len` for incoming slices).

The gzip compressor and the external crypto capability are outside the
repository; following the spec they are treated as parameters constrained
only by their interface contract (`uncompress (compress b) = some b`).
-/

namespace GoAirgap

/-! ## Base64 (model of Go `encoding/base64` StdEncoding)

`EncodeToString` and `DecodeString` with standard alphabet and `=` padding.
Decoding rejects any character outside the alphabet, any input whose length
is not a multiple of 4, and padding anywhere except at the very end. -/

def b64Alphabet : List Char :=
  ['A', 'B', 'C', 'D', 'E', 'F', 'G', 'H', 'I', 'J', 'K', 'L', 'M',
   'N', 'O', 'P', 'Q', 'R', 'S', 'T', 'U', 'V', 'W', 'X', 'Y', 'Z',
   'a', 'b', 'c', 'd', 'e', 'f', 'g', 'h', 'i', 'j', 'k', 'l', 'm',
   'n', 'o', 'p', 'q', 'r', 's', 't', 'u', 'v', 'w', 'x', 'y', 'z',
   '0', '1', '2', '3', '4', '5', '6', '7', '8', '9', '+', '/']

/-- Encode one 6-bit value as a base64 character. -/
def ec (n : Nat) : Char := b64Alphabet.getD n 'A'

/-- Decode one base64 character to its 6-bit value; `none` if not in the
alphabet (`=` is not in the alphabet and is handled structurally). -/
def dc (c : Char) : Option Nat := b64Alphabet.findIdx? (· = c)

/-- Base64-encode a byte list, 3 input bytes per 4 output characters,
padding the final group with `=`. -/
def encodeB64 : List Nat → List Char
  | [] => []
  | a :: b :: c :: rest =>
      ec (a / 4) :: ec (a % 4 * 16 + b / 16) :: ec (b % 16 * 4 + c / 64) ::
        ec (c % 64) :: encodeB64 rest
  | [a] => [ec (a / 4), ec (a % 4 * 16), '=', '=']
  | [a, b] => [ec (a / 4), ec (a % 4 * 16 + b / 16), ec (b % 16 * 4), '=']

/-- Base64-decode a character list; `none` models the error return of Go's
`DecodeString`. -/
def decodeB64 : List Char → Option (List Nat)
  | [] => some []
  | c0 :: c1 :: c2 :: c3 :: rest =>
      (dc c0).bind fun s0 =>
      (dc c1).bind fun s1 =>
        if c2 = '=' then
          if c3 = '=' ∧ rest = [] then some [s0 * 4 + s1 / 16] else none
        else
          (dc c2).bind fun s2 =>
            if c3 = '=' then
              if rest = [] then some [s0 * 4 + s1 / 16, s1 % 16 * 16 + s2 / 4]
              else none
            else
              (dc c3).bind fun s3 =>
                (decodeB64 rest).map
                  (fun tl => (s0 * 4 + s1 / 16) :: (s1 % 16 * 16 + s2 / 4) ::
                    (s2 % 4 * 64 + s3) :: tl)
  | _ => none

/-! ## The `Chunks` type (reassembly buffer / splitter state) -/

/-- Go struct `Chunks { count uint16; size uint16; data [][]byte }`
(the mutex only serialises access and carries no state). -/
structure Chunks where
  count : Nat
  size : Nat
  data : List (Option (List Nat))
  deriving Repr, DecidableEq

/-- `NewChunks()` returns `&Chunks{}`: the zero value. -/
def NewChunks : Chunks := ⟨0, 0, []⟩

/-- Read byte `i` of a byte list (in-bounds accesses only are performed by
the model: every use is guarded by an explicit length check mirroring Go's
bounds semantics). -/
def byteAt (l : List Nat) (i : Nat) : Nat := l.getD i 0

/-- Little-endian 16-bit field at offset `i`: `chunk[i] | chunk[i+1]<<8`. -/
def le16 (l : List Nat) (i : Nat) : Nat := byteAt l i + byteAt l (i + 1) * 256

/-- The splitting loop of `SetData`:
`for iter := 0; iter < len(compressedData); iter += chunkSize { ... }`,
with `chunkSize` already decremented by the header size (`step`).  The loop
is modelled with explicit fuel; `none` means the fuel ran out, which for
`fuel = length + 1` happens exactly when the Go loop never terminates
(`step = 0` with a nonempty remainder). -/
def splitLoop (fuel step : Nat) (rem : List Nat) : Option (List (List Nat)) :=
  match fuel with
  | 0 => none
  | fuel + 1 =>
      if rem = [] then some []
      else
        let chunk := if rem.length ≥ step then rem.take step else rem
        (splitLoop fuel step (rem.drop step)).map (chunk :: ·)

/-- Result of `SetData`: a returned error, a non-terminating loop, or a
fresh `Chunks` value. -/
inductive SetDataResult where
  | err (msg : String)
  | diverge
  | ok (ch : Chunks)
  deriving Repr, DecidableEq

/-- `(*Chunks).SetData(src []byte, chunkSize int)`: validates the chunk
size, compresses, and splits the compressed bytes into windows of
`chunkSize - 6` bytes.  `compress` is the external gzip compressor.
`1<<16 - chunkHeaderOffset = 65530`. -/
def SetData (compress : List Nat → List Nat) (src : List Nat)
    (chunkSize : Nat) : SetDataResult :=
  if chunkSize < 6 then .err "min chunk size 32"
  else if chunkSize > 65530 then .err "max chunk size 65531"
  else
    let step := chunkSize - 6
    let compressedData := compress src
    match splitLoop (compressedData.length + 1) step compressedData with
    | none => .diverge
    | some data =>
        .ok ⟨data.length % 65536, step % 65536, data.map some⟩

/-- `getChunkWithHeader(index)`: 6-byte little-endian header
`[indexLo, indexHi, countLo, countHi, sizeLo, sizeHi]` followed by the
payload, zero-padded to `ch.size + 6` bytes (`make([]byte, ch.size+6)`). -/
def getChunkWithHeader (ch : Chunks) (index : Nat) : List Nat :=
  let payload := (ch.data.getD index none).getD []
  let size := payload.length
  [index % 256, index / 256 % 256, ch.count % 256, ch.count / 256 % 256,
    size % 256, size / 256 % 256]
    ++ payload.take ch.size ++ List.replicate (ch.size - size) 0

/-- `SerializeB64()`: base64 text frame of every chunk, in index order. -/
def SerializeB64 (ch : Chunks) : List String :=
  (List.range ch.count).map (fun i => String.mk (encodeB64 (getChunkWithHeader ch i)))

/-- Result of `ReadB64Chunk`: returned error, runtime panic (out-of-bounds
index or slice), or success with the updated buffer and the `wasAdded`
flag. -/
inductive ReadResult where
  | err (msg : String)
  | panic
  | ok (ch : Chunks) (wasAdded : Bool)
  deriving Repr, DecidableEq

/-- `(*Chunks).ReadB64Chunk(frame string) (wasAdded bool, err error)`.
Decode base64 (error return on failure); on the first frame fix `count`
from bytes 2–3 and allocate `count` nil slots; read `index` (bytes 0–1) and
`size` (bytes 4–5); if slot `index` is nil, copy `size` payload bytes into
it.  Each byte/slice access is guarded by the length check under which the
corresponding Go access panics. -/
def ReadB64Chunk (ch : Chunks) (frame : String) : ReadResult :=
  match decodeB64 frame.data with
  | none => .err "incorrect go-airgap message"
  | some chunk =>
      if ch.count = 0 ∧ chunk.length < 4 then .panic
      else
        let ch1 : Chunks :=
          if ch.count = 0 then
            ⟨le16 chunk 2, ch.size, List.replicate (le16 chunk 2) none⟩
          else ch
        if chunk.length < 2 then .panic
        else
          let index := le16 chunk 0
          if chunk.length < 6 then .panic
          else
            let size := le16 chunk 4
            if index < ch1.data.length then
              match ch1.data.getD index none with
              | some _ => .ok ch1 false
              | none =>
                  if chunk.length < 6 + size then .panic
                  else
                    .ok ⟨ch1.count, ch1.size,
                      ch1.data.set index (some ((chunk.drop 6).take size))⟩ true
            else .panic

/-- `IsReady()`: `len(ch.data) == int(ch.count)`. -/
def IsReady (ch : Chunks) : Bool := ch.data.length == ch.count

/-- The concatenation loop of `Data()`: append `ch.data[index]` for
`index` in `[0, count)` (a nil slot appends nothing). -/
def concatSlots (ch : Chunks) : List Nat :=
  ((List.range ch.count).map (fun i => (ch.data.getD i none).getD [])).flatten

/-- `Data()`: concatenate the slots in index order and uncompress,
discarding the uncompress error (`result, _ = uncompress(result)` leaves
`nil` on failure).  `uncompress` is the external gzip inflater. -/
def Data (uncompress : List Nat → Option (List Nat)) (ch : Chunks) : List Nat :=
  (uncompress (concatSlots ch)).getD []

/-- Feed a list of frames into a buffer with repeated `ReadB64Chunk`
calls; `none` if any call errors or panics. -/
def feedAll (ch : Chunks) : List String → Option Chunks
  | [] => some ch
  | f :: rest =>
      match ReadB64Chunk ch f with
      | .ok ch' _ => feedAll ch' rest
      | _ => none

/-! ## Base64 round-trip -/

lemma dc_ec : ∀ s < 64, dc (ec s) = some s := by decide

lemma ec_ne_pad : ∀ s < 64, ec s ≠ '=' := by decide

lemma decode_encode (l : List Nat) (h : ∀ x ∈ l, x < 256) :
    decodeB64 (encodeB64 l) = some l := by
  induction l using encodeB64.induct with
  | case1 => rfl
  | case2 a b c rest ih =>
      have ha : a < 256 := h a (by simp)
      have hb : b < 256 := h b (by simp)
      have hc : c < 256 := h c (by simp)
      have ih' := ih (fun x hx => h x (by simp [hx]))
      have d0 : dc (ec (a / 4)) = some (a / 4) := dc_ec _ (by omega)
      have d1 : dc (ec (a % 4 * 16 + b / 16)) = some (a % 4 * 16 + b / 16) :=
        dc_ec _ (by omega)
      have d2 : dc (ec (b % 16 * 4 + c / 64)) = some (b % 16 * 4 + c / 64) :=
        dc_ec _ (by omega)
      have d3 : dc (ec (c % 64)) = some (c % 64) := dc_ec _ (by omega)
      have n2 : ec (b % 16 * 4 + c / 64) ≠ '=' := ec_ne_pad _ (by omega)
      have n3 : ec (c % 64) ≠ '=' := ec_ne_pad _ (by omega)
      simp [encodeB64, decodeB64, d0, d1, d2, d3, n2, n3, ih']
      omega
  | case3 a =>
      have ha : a < 256 := h a (by simp)
      have d0 : dc (ec (a / 4)) = some (a / 4) := dc_ec _ (by omega)
      have d1 : dc (ec (a % 4 * 16)) = some (a % 4 * 16) := dc_ec _ (by omega)
      simp [encodeB64, decodeB64, d0, d1]
      omega
  | case4 a b =>
      have ha : a < 256 := h a (by simp)
      have hb : b < 256 := h b (by simp)
      have d0 : dc (ec (a / 4)) = some (a / 4) := dc_ec _ (by omega)
      have d1 : dc (ec (a % 4 * 16 + b / 16)) = some (a % 4 * 16 + b / 16) :=
        dc_ec _ (by omega)
      have d2 : dc (ec (b % 16 * 4)) = some (b % 16 * 4) := dc_ec _ (by omega)
      have n2 : ec (b % 16 * 4) ≠ '=' := ec_ne_pad _ (by omega)
      simp [encodeB64, decodeB64, d0, d1, d2, n2]
      omega

/-- `encodeB64` is injective on byte lists (both sides decode back). -/
lemma encodeB64_inj {l1 l2 : List Nat} (h1 : ∀ x ∈ l1, x < 256)
    (h2 : ∀ x ∈ l2, x < 256) (he : encodeB64 l1 = encodeB64 l2) : l1 = l2 := by
  have d1 := decode_encode l1 h1
  have d2 := decode_encode l2 h2
  rw [he, d2] at d1
  exact (Option.some_inj.mp d1).symm

/-! ## Properties of the splitting loop -/

/-- With a zero window (`chunkSize = 6`) and nonempty compressed data, the
Go loop `iter += 0` never advances: no amount of fuel completes it. -/
lemma splitLoop_zero_step (rem : List Nat) (h : rem ≠ []) :
    ∀ fuel, splitLoop fuel 0 rem = none := by
  intro fuel
  induction fuel with
  | zero => rfl
  | succ fuel ih => rw [splitLoop, if_neg h, List.drop_zero, ih]; rfl

/-- With a positive window the loop terminates within `length + 1`
iterations. -/
lemma splitLoop_total (step : Nat) (hstep : 1 ≤ step) :
    ∀ fuel rem, rem.length < fuel → (splitLoop fuel step rem).isSome := by
  intro fuel
  induction fuel with
  | zero => intro rem h; omega
  | succ fuel ih =>
      intro rem h
      rw [splitLoop]
      by_cases hrem : rem = []
      · simp [hrem]
      · have hlen : 1 ≤ rem.length := List.length_pos.mpr hrem
        have := ih (rem.drop step) (by rw [List.length_drop]; omega)
        rw [if_neg hrem]
        cases hs : splitLoop fuel step (rem.drop step) with
        | none => rw [hs] at this; simp at this
        | some tl => simp

/-- Soundness of the split: the produced windows concatenate back to the
input, each window holds at most `step` bytes, and every byte comes from
the input. -/
lemma splitLoop_sound (step : Nat) :
    ∀ fuel rem data, splitLoop fuel step rem = some data →
      data.flatten = rem ∧ ∀ c ∈ data, c.length ≤ step ∧ ∀ x ∈ c, x ∈ rem := by
  intro fuel
  induction fuel with
  | zero => intro rem data h; simp [splitLoop] at h
  | succ fuel ih =>
      intro rem data h
      rw [splitLoop] at h
      by_cases hrem : rem = []
      · rw [if_pos hrem] at h
        obtain rfl : ([] : List (List Nat)) = data := Option.some_inj.mp h
        simp [hrem]
      · rw [if_neg hrem] at h
        have hchunk : (if rem.length ≥ step then rem.take step else rem) = rem.take step := by
          split
          · rfl
          · exact (List.take_of_length_le (by omega)).symm
        rw [hchunk] at h
        cases hs : splitLoop fuel step (rem.drop step) with
        | none => rw [hs] at h; simp at h
        | some tl =>
            rw [hs] at h
            obtain rfl : rem.take step :: tl = data := by
              simpa using h
            obtain ⟨hfl, hmem⟩ := ih _ _ hs
            refine ⟨by simp [hfl, List.take_append_drop], ?_⟩
            intro c hc
            rcases List.mem_cons.mp hc with rfl | hc
            · exact ⟨by simp, fun x hx => List.mem_of_mem_take hx⟩
            · exact ⟨(hmem c hc).1,
                fun x hx => List.mem_of_mem_drop ((hmem c hc).2 x hx)⟩

/-- The number of windows is at most `k` when the input fits in `k`
windows of `step` bytes. -/
lemma splitLoop_length_le (step : Nat) (_hstep : 1 ≤ step) :
    ∀ fuel (k : Nat) rem data, rem.length ≤ k * step →
      splitLoop fuel step rem = some data → data.length ≤ k := by
  intro fuel
  induction fuel with
  | zero => intro k rem data _ h; simp [splitLoop] at h
  | succ fuel ih =>
      intro k rem data hk h
      rw [splitLoop] at h
      by_cases hrem : rem = []
      · rw [if_pos hrem] at h
        obtain rfl : ([] : List (List Nat)) = data := Option.some_inj.mp h
        simp
      · rw [if_neg hrem] at h
        have hlen : 1 ≤ rem.length := List.length_pos.mpr hrem
        have hk1 : 1 ≤ k := by
          rcases Nat.eq_zero_or_pos k with rfl | h1
          · omega
          · exact h1
        cases hs : splitLoop fuel step (rem.drop step) with
        | none => rw [hs] at h; simp at h
        | some tl =>
            rw [hs] at h
            obtain rfl : _ :: tl = data := by simpa using h
            have := ih (k - 1) (rem.drop step) tl
              (by rw [List.length_drop]
                  have : (k - 1) * step = k * step - step := by
                    cases k with
                    | zero => omega
                    | succ k => simp [Nat.succ_mul]
                  omega) hs
            simp only [List.length_cons]
            omega

/-! ## Claims about chunk splitting boundaries (C3) -/

/-- C3 counterexample: the claim says chunk size 65535 succeeds and chunk
size 6 succeeds for every input; on the code, 65535 is rejected
(`chunkSize > 1<<16 - 6 = 65530`) and 6 makes the splitting loop step by
zero and never terminate on nonempty compressed data (here the compressor
is the identity and the input one byte). -/
theorem c3_counterexample :
    SetData (fun l => l) [0] 65535 = SetDataResult.err "max chunk size 65531" ∧
    SetData (fun l => l) [0] 6 = SetDataResult.diverge := by
  constructor <;> rfl

/-- C3 (amended): chunk size 5 fails with the min-size configuration
error and 65536 fails with the max-size configuration error, for every
input; but the accepted band is `[6, 65530]`, not `[6, 65535]`
(65531–65535 also fail with the max-size error), and size 6 — though it
passes validation — sends the splitting loop into an infinite loop
whenever the compressed data is nonempty.  Every size in `[7, 65530]`
succeeds for every input. -/
theorem c3_chunk_size_boundaries (compress : List Nat → List Nat) (src : List Nat) :
    SetData compress src 5 = SetDataResult.err "min chunk size 32" ∧
    SetData compress src 65536 = SetDataResult.err "max chunk size 65531" ∧
    SetData compress src 65535 = SetDataResult.err "max chunk size 65531" ∧
    (compress src ≠ [] → SetData compress src 6 = SetDataResult.diverge) ∧
    (∀ s, 7 ≤ s → s ≤ 65530 → ∃ ch, SetData compress src s = SetDataResult.ok ch) := by
  refine ⟨rfl, rfl, rfl, ?_, ?_⟩
  · intro hne
    rw [SetData, if_neg (by norm_num), if_neg (by norm_num)]
    simp only
    rw [splitLoop_zero_step _ hne]
  · intro s h7 h65530
    rw [SetData, if_neg (by omega), if_neg (by omega)]
    simp only
    have := splitLoop_total (s - 6) (by omega) ((compress src).length + 1)
      (compress src) (by omega)
    cases hs : splitLoop ((compress src).length + 1) (s - 6) (compress src) with
    | none => rw [hs] at this; simp at this
    | some data => exact ⟨_, rfl⟩

/-- C3 witness: the amended claim instantiated with the identity
compressor and the one-byte input `[0]`, at chunk sizes 6 and 7. -/
theorem c3_chunk_size_boundaries_witness :
    SetData (fun l => l) ([0] : List Nat) 6 = SetDataResult.diverge ∧
    ∃ ch, SetData (fun l => l) ([0] : List Nat) 7 = SetDataResult.ok ch :=
  ⟨(c3_chunk_size_boundaries (fun l => l) [0]).2.2.2.1 (by decide),
   (c3_chunk_size_boundaries (fun l => l) [0]).2.2.2.2 7 (by norm_num) (by norm_num)⟩

/-! ## Claim C2: the completion predicate -/

/-- C2 (code bug): `IsReady` compares the allocated table length to
`count`, and the table is allocated to length `count` at the very first
chunk; so after delivering only chunks 0 and 1 of a 3-chunk message
`IsReady` already returns `true`, where the claim (and the spec) require
`false` until all 3 distinct indices arrive.  Both reads below succeed and
report `wasAdded = true`, the buffer's count is fixed at 3, slot 2 is
still empty — yet `IsReady` is `true`. -/
theorem c2_isready_code_bug :
    ∃ S1 S2 : Chunks,
      ReadB64Chunk NewChunks (String.mk (encodeB64 [0, 0, 3, 0, 1, 0, 7])) =
        ReadResult.ok S1 true ∧
      ReadB64Chunk S1 (String.mk (encodeB64 [1, 0, 3, 0, 1, 0, 8])) =
        ReadResult.ok S2 true ∧
      S2.count = 3 ∧ S2.data.getD 2 none = none ∧ IsReady S2 = true := by
  refine ⟨⟨3, 0, [some [7], none, none]⟩, ⟨3, 0, [some [7], some [8], none]⟩,
    ?_, ?_, rfl, rfl, rfl⟩ <;> decide

/-! ## Claims about `ReadB64Chunk` failure modes (C4, C5) -/

/-- C5 counterexample: the claim says a frame whose decoded length is
below the 6-byte header floor fails with a malformed-frame error; on the
code, `"AA=="` decodes successfully to the single byte `[0]` and the
unguarded header read `chunk[2]` then panics (index out of range) — no
error value is ever returned. -/
theorem c5_counterexample :
    decodeB64 ("AA==".data) = some [0] ∧
    ReadB64Chunk NewChunks "AA==" = ReadResult.panic := by
  constructor <;> decide

/-- C5 (amended): if base64 decoding fails, `ReadB64Chunk` returns the
malformed-frame error `"incorrect go-airgap message"` before touching any
buffer state (in this state-passing model an `err` outcome carries no new
state: the caller's buffer is exactly the one it passed in); but a frame
that decodes to fewer than 6 bytes is not converted to an error — the
unguarded header byte reads panic instead. -/
theorem c5_malformed_frame (ch : Chunks) (frame : String) :
    (decodeB64 frame.data = none →
      ReadB64Chunk ch frame = ReadResult.err "incorrect go-airgap message") ∧
    (∀ chunk, decodeB64 frame.data = some chunk → chunk.length < 6 →
      ReadB64Chunk ch frame = ReadResult.panic) := by
  constructor
  · intro hdec
    rw [ReadB64Chunk, hdec]
  · intro chunk hdec hlen
    rw [ReadB64Chunk, hdec]
    simp only
    split_ifs <;> rfl

/-- C5 witness: the amended claim applied to a fresh buffer with the
undecodable frame `"!!!!"` and with the short frame `"AA=="`. -/
theorem c5_malformed_frame_witness :
    ReadB64Chunk NewChunks "!!!!" = ReadResult.err "incorrect go-airgap message" ∧
    ReadB64Chunk NewChunks "AA==" = ReadResult.panic :=
  ⟨(c5_malformed_frame NewChunks "!!!!").1 (by decide),
   (c5_malformed_frame NewChunks "AA==").2 [0] (by decide) (by decide)⟩

/-- C4 counterexample: the claim says a frame whose index field is ≥ the
fixed count fails with an out-of-range error; on the code, after the first
frame fixes `count = 3`, a frame with index 5 panics on the unguarded
`ch.data[index]` access — no error value is returned. -/
theorem c4_counterexample :
    ∃ S1 : Chunks,
      ReadB64Chunk NewChunks (String.mk (encodeB64 [0, 0, 3, 0, 1, 0, 7])) =
        ReadResult.ok S1 true ∧
      ReadB64Chunk S1 (String.mk (encodeB64 [5, 0, 3, 0, 0, 0])) =
        ReadResult.panic := by
  exact ⟨⟨3, 0, [some [7], none, none]⟩, by decide, by decide⟩

/-- C4 (amended): for a buffer whose count is fixed at `n` (table
allocated to `n` slots) and a decoded frame of at least the 6 header bytes
whose index field is `≥ n`, `ReadB64Chunk` panics on the unguarded
`ch.data[index]` access: it neither returns an error value nor writes
anywhere (in particular not outside the table), and the caller's buffer is
left untouched. -/
theorem c4_index_out_of_range (S : Chunks) (frame : String) (chunk : List Nat)
    (hdec : decodeB64 frame.data = some chunk) (hcount : S.count ≠ 0)
    (hlen : S.data.length = S.count) (h6 : 6 ≤ chunk.length)
    (hidx : S.count ≤ le16 chunk 0) :
    ReadB64Chunk S frame = ReadResult.panic := by
  rw [ReadB64Chunk, hdec]
  simp only
  rw [if_neg (show ¬(S.count = 0 ∧ chunk.length < 4) by omega)]
  rw [if_neg hcount]
  rw [if_neg (show ¬chunk.length < 2 by omega),
    if_neg (show ¬chunk.length < 6 by omega)]
  rw [if_neg (show ¬le16 chunk 0 < S.data.length by omega)]

/-- C4 witness: the amended claim applied to a buffer with count fixed at
3 and a frame carrying index 5. -/
theorem c4_index_out_of_range_witness :
    ReadB64Chunk ⟨3, 0, [some [7], none, none]⟩
      (String.mk (encodeB64 [5, 0, 3, 0, 0, 0])) = ReadResult.panic :=
  c4_index_out_of_range ⟨3, 0, [some [7], none, none]⟩ _ [5, 0, 3, 0, 0, 0]
    (by decide) (by decide) (by decide) (by decide) (by decide)

/-! ## Claim C6: idempotent duplicate delivery -/

lemma getD_set_self {α : Type} (l : List (Option α)) (i : Nat) (a : Option α)
    (h : i < l.length) : (l.set i a).getD i none = a := by
  rw [List.getD_eq_getElem?_getD, List.getElem?_set_self h]
  rfl

lemma getD_replicate_none {α : Type} (n i : Nat) :
    (List.replicate n (none : Option α)).getD i none = none := by
  rw [List.getD_eq_getElem?_getD, List.getElem?_replicate]
  split <;> rfl

/-- A successful `ReadB64Chunk` leaves the target slot filled: the frame
decoded to at least the 6 header bytes, the resulting buffer has a nonzero
count, the decoded index is inside its table, and that slot is non-nil. -/
lemma ReadB64Chunk_ok_filled (S : Chunks) (frame : String) (S' : Chunks) (w : Bool)
    (h : ReadB64Chunk S frame = ReadResult.ok S' w) :
    ∃ chunk, decodeB64 frame.data = some chunk ∧ 6 ≤ chunk.length ∧
      S'.count ≠ 0 ∧ le16 chunk 0 < S'.data.length ∧
      ∃ p, S'.data.getD (le16 chunk 0) none = some p := by
  rw [ReadB64Chunk] at h
  cases hdec : decodeB64 frame.data with
  | none => rw [hdec] at h; cases h
  | some chunk =>
      rw [hdec] at h
      simp only at h
      refine ⟨chunk, rfl, ?_⟩
      by_cases hc : S.count = 0
      · by_cases h4 : chunk.length < 4
        · rw [if_pos ⟨hc, h4⟩] at h; cases h
        · rw [if_neg (fun hh => h4 hh.2), if_pos hc] at h
          by_cases h2 : chunk.length < 2
          · rw [if_pos h2] at h; cases h
          · rw [if_neg h2] at h
            by_cases h6 : chunk.length < 6
            · rw [if_pos h6] at h; cases h
            · rw [if_neg h6] at h
              by_cases hidx : le16 chunk 0 <
                  (List.replicate (le16 chunk 2) (none : Option (List Nat))).length
              · rw [if_pos hidx] at h
                rw [getD_replicate_none] at h
                by_cases hsz : chunk.length < 6 + le16 chunk 4
                · rw [if_pos hsz] at h; cases h
                · rw [if_neg hsz] at h
                  rw [ReadResult.ok.injEq] at h
                  obtain ⟨rfl, rfl⟩ := h
                  simp only [List.length_replicate] at hidx
                  refine ⟨by omega, by simp only; omega, ?_, ?_⟩
                  · simp only [List.length_set, List.length_replicate]
                    exact hidx
                  · exact ⟨_, by
                      rw [getD_set_self _ _ _ (by simp [hidx])]⟩
              · rw [if_neg hidx] at h; cases h
      · rw [if_neg (fun hh => hc hh.1), if_neg hc] at h
        by_cases h2 : chunk.length < 2
        · rw [if_pos h2] at h; cases h
        · rw [if_neg h2] at h
          by_cases h6 : chunk.length < 6
          · rw [if_pos h6] at h; cases h
          · rw [if_neg h6] at h
            by_cases hidx : le16 chunk 0 < S.data.length
            · rw [if_pos hidx] at h
              cases hslot : S.data.getD (le16 chunk 0) none with
              | some p =>
                  rw [hslot] at h
                  rw [ReadResult.ok.injEq] at h
                  obtain ⟨rfl, rfl⟩ := h
                  exact ⟨by omega, hc, hidx, p, hslot⟩
              | none =>
                  rw [hslot] at h
                  by_cases hsz : chunk.length < 6 + le16 chunk 4
                  · rw [if_pos hsz] at h; cases h
                  · rw [if_neg hsz] at h
                    rw [ReadResult.ok.injEq] at h
                    obtain ⟨rfl, rfl⟩ := h
                    refine ⟨by omega, hc, ?_, ?_⟩
                    · simpa using hidx
                    · exact ⟨_, by rw [getD_set_self _ _ _ hidx]⟩
            · rw [if_neg hidx] at h; cases h

/-- Reading a frame whose target slot is already filled changes nothing
and reports `wasAdded = false`. -/
lemma ReadB64Chunk_filled_slot (S : Chunks) (frame : String) (chunk p : List Nat)
    (hdec : decodeB64 frame.data = some chunk) (hcount : S.count ≠ 0)
    (h6 : 6 ≤ chunk.length) (hidx : le16 chunk 0 < S.data.length)
    (hslot : S.data.getD (le16 chunk 0) none = some p) :
    ReadB64Chunk S frame = ReadResult.ok S false := by
  rw [ReadB64Chunk, hdec]
  simp only
  rw [if_neg (show ¬(S.count = 0 ∧ chunk.length < 4) by omega)]
  rw [if_neg hcount]
  rw [if_neg (show ¬chunk.length < 2 by omega),
    if_neg (show ¬chunk.length < 6 by omega)]
  rw [if_pos hidx, hslot]

/-- C6 (confirmed): feeding the same valid frame twice leaves the buffer
exactly as after the first call and the second call reports
`wasAdded = false`; more generally, any frame whose slot is already
filled is ignored without error, reporting `wasAdded = false`. -/
theorem c6_duplicate_delivery :
    (∀ (S : Chunks) (f : String) (S' : Chunks) (w : Bool),
      ReadB64Chunk S f = ReadResult.ok S' w →
      ReadB64Chunk S' f = ReadResult.ok S' false) ∧
    (∀ (S : Chunks) (f : String) (chunk p : List Nat),
      decodeB64 f.data = some chunk → S.count ≠ 0 → 6 ≤ chunk.length →
      le16 chunk 0 < S.data.length →
      S.data.getD (le16 chunk 0) none = some p →
      ReadB64Chunk S f = ReadResult.ok S false) := by
  constructor
  · intro S f S' w h
    obtain ⟨chunk, hdec, h6, hcnt, hidx, p, hslot⟩ := ReadB64Chunk_ok_filled S f S' w h
    exact ReadB64Chunk_filled_slot S' f chunk p hdec hcnt h6 hidx hslot
  · intro S f chunk p hdec hcnt h6 hidx hslot
    exact ReadB64Chunk_filled_slot S f chunk p hdec hcnt h6 hidx hslot

/-- C6 witness: feeding the same 3-chunk-message frame twice into a fresh
buffer; the second call returns the first call's state unchanged with
`wasAdded = false`. -/
theorem c6_duplicate_delivery_witness :
    ReadB64Chunk ⟨3, 0, [some [7], none, none]⟩
      (String.mk (encodeB64 [0, 0, 3, 0, 1, 0, 7])) =
      ReadResult.ok ⟨3, 0, [some [7], none, none]⟩ false :=
  c6_duplicate_delivery.1 NewChunks (String.mk (encodeB64 [0, 0, 3, 0, 1, 0, 7]))
    ⟨3, 0, [some [7], none, none]⟩ true (by decide)

/-! ## The AirGap / Message envelope layer

`Message.Marshal`, `AirGap.Unmarshal` and friends from the envelope code.
The crypto capability (`EncryptorDecryptor`) is external: it is passed as
an optional `List Nat → Option (List Nat)` (`none` result = capability
error), mirroring `a.ed != nil`.  `chunkSize` plays no role in
`Marshal`/`Unmarshal` and is omitted from the state. -/

/-- Go struct `OpPayload { OpCode uint16; Size uint32; Data []byte }`. -/
structure OpPayload where
  opCode : Nat
  size : Nat
  data : List Nat
  deriving Repr, DecidableEq

/-- Go struct `Message` (the envelope builder); the `chunkSize` and
encryptor fields are carried separately as parameters. -/
structure Message where
  version : Nat
  instanceId : List Nat
  payload : List OpPayload
  deriving Repr, DecidableEq

/-- Go struct `AirGap { version uint8; instanceId []byte (33 bytes) }`
(`NewAirGap` panics unless the instance id is exactly 33 bytes). -/
structure AirGap where
  version : Nat
  instanceId : List Nat
  deriving Repr, DecidableEq

/-- `(*AirGap).CreateMessage()`: fresh envelope bound to the context's
version and instance id (the source panics only when `instanceId` is a
nil slice, which `NewAirGap` rules out). -/
def CreateMessage (a : AirGap) : Message := ⟨a.version, a.instanceId, []⟩

/-- `(*Message).AddOperation(opCode uint16, data []byte)`: append one
operation, `Size = uint32(len(data))`. -/
def AddOperation (m : Message) (opCode : Nat) (data : List Nat) : Message :=
  { m with payload := m.payload ++ [⟨opCode, data.length % 2 ^ 32, data⟩] }

/-- One operation record as serialized by `Marshal`:
`opCode(2, big-endian) || size(4, big-endian) || data`, where the data is
truncated/zero-padded to `Size` bytes (`make([]byte, 6+Size)` then
`copy`); via `AddOperation`, `Size = len(data)` and nothing is padded. -/
def marshalOp (p : OpPayload) : List Nat :=
  [p.opCode / 256 % 256, p.opCode % 256,
   p.size / 2 ^ 24 % 256, p.size / 2 ^ 16 % 256, p.size / 256 % 256, p.size % 256]
    ++ (p.data.take p.size ++ List.replicate (p.size - p.data.length) 0)

/-- `(*Message).Marshal()`: `version || instanceId || records`, passed to
the encryptor when one is bound (`none` = `EncryptionError`). -/
def Marshal (encrypt : Option (List Nat → Option (List Nat))) (m : Message) :
    Option (List Nat) :=
  let result := m.version :: (m.instanceId ++ (m.payload.map marshalOp).flatten)
  match encrypt with
  | none => some result
  | some e => e result

/-- Outcome of the operation-parsing loop: `fuelOut` is an artefact of the
fuel-based embedding and is unreachable for the fuel `Unmarshal` supplies
(see `opsLoopF_no_fuelOut`); `panic` is a Go runtime slice/index panic. -/
inductive OpsResult where
  | fuelOut
  | panic
  | ok (m : Message)
  deriving Repr, DecidableEq

/-- The record-parsing loop of `Unmarshal`:
`for iter := 34; iter < len(data); iter += bytesReaded` with
`bytesReaded = 6 + size`; reads `opCode` (2 bytes big-endian) and `size`
(4 bytes big-endian) at `iter`, then slices
`data[iter+6 : iter+6+size]` — each access guarded by the length check
under which Go panics.  Structural fuel makes the definition computable;
one unit is spent per record. -/
def opsLoopF (data : List Nat) : Nat → Nat → Message → OpsResult
  | 0, _, _ => .fuelOut
  | fuel + 1, iter, m =>
      if iter < data.length then
        if data.length < iter + 6 then .panic
        else
          let opCode := byteAt data (iter + 1) + byteAt data iter * 256
          let size := byteAt data (iter + 5) + byteAt data (iter + 4) * 256 +
            byteAt data (iter + 3) * 65536 + byteAt data (iter + 2) * 16777216
          if data.length < iter + 6 + size then .panic
          else
            opsLoopF data fuel (iter + 6 + size)
              (AddOperation m opCode ((data.drop (iter + 6)).take size))
      else .ok m

/-- Each loop iteration advances `iter` by at least 6, so
`data.length + 1` units of fuel always suffice: `fuelOut` is unreachable
from `Unmarshal`. -/
lemma opsLoopF_no_fuelOut (data : List Nat) :
    ∀ fuel iter m, 1 ≤ fuel → data.length < iter + fuel →
      opsLoopF data fuel iter m ≠ OpsResult.fuelOut := by
  intro fuel
  induction fuel with
  | zero => intro iter m h1 h; omega
  | succ fuel ih =>
      intro iter m hf h
      rw [opsLoopF]
      by_cases h1 : iter < data.length
      · rw [if_pos h1]
        by_cases h2 : data.length < iter + 6
        · rw [if_pos h2]; intro hh; cases hh
        · rw [if_neg h2]
          simp only
          split
          · intro hh; cases hh
          · exact ih _ _ (by omega) (by omega)
      · rw [if_neg h1]; intro hh; cases hh

/-- The decryption stage of `Unmarshal`: apply the bound capability, or
pass the input through unchanged when none is bound. -/
def decryptStage (decrypt : Option (List Nat → Option (List Nat)))
    (input : List Nat) : Option (List Nat) :=
  match decrypt with
  | none => some input
  | some d => d input

/-- Outcome of `Unmarshal`: a returned error, a runtime panic, or a parsed
message. -/
inductive UnmarshalResult where
  | err (msg : String)
  | panic
  | ok (m : Message)
  deriving Repr, DecidableEq

/-- `(*AirGap).Unmarshal(data []byte)`: decrypt when a capability is
bound (propagating its error), read `version = data[0]` and
`instanceId = data[1:34]` (both unguarded in the source: inputs shorter
than 34 bytes panic), reject version and instance mismatches, then parse
the operation records. -/
def Unmarshal (decrypt : Option (List Nat → Option (List Nat))) (a : AirGap)
    (input : List Nat) : UnmarshalResult :=
  match decryptStage decrypt input with
  | none => .err "decrypt error"
  | some data =>
      if data.length < 34 then .panic
      else
        let version := byteAt data 0
        let instanceId := (data.drop 1).take 33
        if version < a.version then
          .err "go-airgap message version less than supported"
        else if a.version < version then
          .err "go-airgap message version greater than supported"
        else if ¬a.instanceId = instanceId then
          .err "go-airgap message has incorrect instance"
        else
          match opsLoopF data (data.length + 1) 34 (CreateMessage a) with
          | .fuelOut => .panic
          | .panic => .panic
          | .ok m => .ok m

/-! ## Claim C10: short inputs panic before any validation -/

/-- C10 (confirmed): `Unmarshal` reads `data[0]` and `data[1:34]` before
any validation; any (post-decryption) input shorter than 34 bytes makes
those accesses panic — the function returns no error value for short
inputs, so callers must guarantee the minimum envelope length. -/
theorem c10_short_input_panics (decrypt : Option (List Nat → Option (List Nat)))
    (a : AirGap) (input data : List Nat)
    (hdec : decryptStage decrypt input = some data) (hlen : data.length < 34) :
    Unmarshal decrypt a input = UnmarshalResult.panic := by
  rw [Unmarshal, hdec]
  simp only
  rw [if_pos hlen]

/-- C10 witness: the empty input with no decryption capability bound. -/
theorem c10_short_input_panics_witness :
    Unmarshal none ⟨1, List.replicate 33 0⟩ [] = UnmarshalResult.panic :=
  c10_short_input_panics none ⟨1, List.replicate 33 0⟩ [] [] rfl (by decide)

/-! ## Claim C7: version and instance rejection -/

/-- C7 (confirmed): for a (post-decryption) envelope of at least the
34-byte header, `Unmarshal` fails with the version-too-old error when the
version byte is strictly below the configured version, with the
version-too-new error when strictly above, and with the instance-mismatch
error when the version matches but the 33-byte instance id differs;
conversely any successfully parsed envelope has exactly the configured
version byte and instance id. -/
theorem c7_version_instance_rejection (a : AirGap) (data : List Nat)
    (hlen : 34 ≤ data.length) :
    (byteAt data 0 < a.version →
      Unmarshal none a data =
        UnmarshalResult.err "go-airgap message version less than supported") ∧
    (a.version < byteAt data 0 →
      Unmarshal none a data =
        UnmarshalResult.err "go-airgap message version greater than supported") ∧
    (byteAt data 0 = a.version → a.instanceId ≠ (data.drop 1).take 33 →
      Unmarshal none a data =
        UnmarshalResult.err "go-airgap message has incorrect instance") ∧
    (∀ m, Unmarshal none a data = UnmarshalResult.ok m →
      byteAt data 0 = a.version ∧ (data.drop 1).take 33 = a.instanceId) := by
  have hstage : decryptStage none data = some data := rfl
  refine ⟨?_, ?_, ?_, ?_⟩
  · intro hv
    rw [Unmarshal, hstage]
    simp only
    rw [if_neg (by omega), if_pos hv]
  · intro hv
    rw [Unmarshal, hstage]
    simp only
    rw [if_neg (by omega), if_neg (by omega), if_pos hv]
  · intro hv hid
    rw [Unmarshal, hstage]
    simp only
    rw [if_neg (by omega), if_neg (by omega), if_neg (by omega), if_pos hid]
  · intro m h
    rw [Unmarshal, hstage] at h
    simp only at h
    rw [if_neg (by omega)] at h
    by_cases hv1 : byteAt data 0 < a.version
    · rw [if_pos hv1] at h; cases h
    · rw [if_neg hv1] at h
      by_cases hv2 : a.version < byteAt data 0
      · rw [if_pos hv2] at h; cases h
      · rw [if_neg hv2] at h
        by_cases hid : ¬a.instanceId = (data.drop 1).take 33
        · rw [if_pos hid] at h; cases h
        · refine ⟨by omega, ?_⟩
          rw [Decidable.not_not] at hid
          exact hid.symm

/-- C7 witness: a context expecting version 5 with an all-zero instance
id, fed correctly framed envelopes with version 4 (too old), 6 (too new),
and 5 with a wrong instance id. -/
theorem c7_version_instance_rejection_witness :
    Unmarshal none ⟨5, List.replicate 33 0⟩ (4 :: List.replicate 33 0) =
      UnmarshalResult.err "go-airgap message version less than supported" ∧
    Unmarshal none ⟨5, List.replicate 33 0⟩ (6 :: List.replicate 33 0) =
      UnmarshalResult.err "go-airgap message version greater than supported" ∧
    Unmarshal none ⟨5, List.replicate 33 0⟩ (5 :: List.replicate 33 1) =
      UnmarshalResult.err "go-airgap message has incorrect instance" :=
  ⟨(c7_version_instance_rejection ⟨5, List.replicate 33 0⟩ _ (by decide)).1 (by decide),
   (c7_version_instance_rejection ⟨5, List.replicate 33 0⟩ _ (by decide)).2.1 (by decide),
   (c7_version_instance_rejection ⟨5, List.replicate 33 0⟩ _ (by decide)).2.2.1
     (by decide) (by decide)⟩

/-! ## Claim C9: truncated trailing operation record -/

lemma byteAt_cons_zero (a : Nat) (l : List Nat) : byteAt (a :: l) 0 = a := rfl

lemma byteAt_cons_succ (a : Nat) (l : List Nat) (i : Nat) :
    byteAt (a :: l) (i + 1) = byteAt l i := rfl

lemma byteAt_append_right (l1 l2 : List Nat) (i : Nat) :
    byteAt (l1 ++ l2) (l1.length + i) = byteAt l2 i := by
  rw [byteAt, byteAt, List.getD_eq_getElem?_getD, List.getD_eq_getElem?_getD,
    List.getElem?_append_right (Nat.le_add_right _ _)]
  congr 2
  omega

/-- C9 counterexample: the claim says a trailing record whose declared
size exceeds the remaining bytes fails with a truncated-operation error;
on the code, a well-framed envelope whose single record declares size 5
but carries 1 byte makes the slice `data[iter+6 : iter+6+size]` panic
(slice bounds out of range) — no error value is returned. -/
theorem c9_counterexample :
    Unmarshal none ⟨1, List.replicate 33 0⟩
      (1 :: (List.replicate 33 0 ++ [0, 1, 0, 0, 0, 5, 170])) =
      UnmarshalResult.panic := by decide

/-- C9 (amended): for every envelope that passes the version and instance
checks and whose trailing operation record declares a size exceeding the
remaining bytes, `Unmarshal` panics (Go runtime slice bounds out of range)
on `data[iter+6 : iter+6+size]` instead of returning a
truncated-operation error; it does not read out of bounds, but the caller
gets no error value.  (`opsLoopF_no_fuelOut` shows the `panic` here is the
bounds check, not a fuel artefact.) -/
theorem c9_truncated_record (a : AirGap) (hid : a.instanceId.length = 33)
    (b0 b1 s0 s1 s2 s3 : Nat) (tail : List Nat)
    (htrunc : tail.length < s3 + s2 * 256 + s1 * 65536 + s0 * 16777216) :
    Unmarshal none a
      (a.version :: (a.instanceId ++ b0 :: b1 :: s0 :: s1 :: s2 :: s3 :: tail)) =
      UnmarshalResult.panic := by
  have hstage : decryptStage none
      (a.version :: (a.instanceId ++ b0 :: b1 :: s0 :: s1 :: s2 :: s3 :: tail)) =
      some (a.version :: (a.instanceId ++ b0 :: b1 :: s0 :: s1 :: s2 :: s3 :: tail)) := rfl
  have hlen : (a.version :: (a.instanceId ++ b0 :: b1 :: s0 :: s1 :: s2 :: s3 :: tail)).length =
      40 + tail.length := by
    simp [hid]
    omega
  have hb : ∀ k, byteAt
      (a.version :: (a.instanceId ++ b0 :: b1 :: s0 :: s1 :: s2 :: s3 :: tail)) (34 + k) =
      byteAt (b0 :: b1 :: s0 :: s1 :: s2 :: s3 :: tail) k := by
    intro k
    have h1 : 34 + k = (33 + k) + 1 := by omega
    rw [h1, byteAt_cons_succ]
    rw [show 33 + k = a.instanceId.length + k by omega]
    exact byteAt_append_right _ _ _
  have hv0 : byteAt
      (a.version :: (a.instanceId ++ b0 :: b1 :: s0 :: s1 :: s2 :: s3 :: tail)) 0 =
      a.version := rfl
  have hinst : ((a.version :: (a.instanceId ++ b0 :: b1 :: s0 :: s1 :: s2 :: s3 :: tail)).drop 1).take 33 =
      a.instanceId := by
    rw [List.drop_one, List.tail_cons, List.take_left' hid]
  have hloop : opsLoopF
      (a.version :: (a.instanceId ++ b0 :: b1 :: s0 :: s1 :: s2 :: s3 :: tail))
      ((a.version :: (a.instanceId ++ b0 :: b1 :: s0 :: s1 :: s2 :: s3 :: tail)).length + 1)
      34 (CreateMessage a) = OpsResult.panic := by
    rw [opsLoopF]
    rw [if_pos (by omega), if_neg (by omega)]
    simp only
    rw [if_pos ?side]
    case side =>
      rw [hb 5, hb 4, hb 3, hb 2]
      have r2 : byteAt (b0 :: b1 :: s0 :: s1 :: s2 :: s3 :: tail) 2 = s0 := rfl
      have r3 : byteAt (b0 :: b1 :: s0 :: s1 :: s2 :: s3 :: tail) 3 = s1 := rfl
      have r4 : byteAt (b0 :: b1 :: s0 :: s1 :: s2 :: s3 :: tail) 4 = s2 := rfl
      have r5 : byteAt (b0 :: b1 :: s0 :: s1 :: s2 :: s3 :: tail) 5 = s3 := rfl
      rw [r2, r3, r4, r5]
      omega
  rw [Unmarshal, hstage]
  simp only
  rw [if_neg (by omega), hv0, hinst]
  rw [if_neg (by omega), if_neg (by omega), if_neg (by simp)]
  rw [hloop]

/-- C9 witness: the amended claim at a concrete context and envelope (the
counterexample's input). -/
theorem c9_truncated_record_witness :
    Unmarshal none ⟨1, List.replicate 33 0⟩
      (1 :: (List.replicate 33 0 ++ 0 :: 1 :: 0 :: 0 :: 0 :: 5 :: [170])) =
      UnmarshalResult.panic :=
  c9_truncated_record ⟨1, List.replicate 33 0⟩ (by decide) 0 1 0 0 0 5 [170]
    (by decide)

/-! ## Claim C8: envelope round-trip -/

lemma byteAt_drop (l : List Nat) (n i : Nat) :
    byteAt l (n + i) = byteAt (l.drop n) i := by
  simp [byteAt, List.getD_eq_getElem?_getD, List.getElem?_drop]

/-- Via `AddOperation` every record satisfies `len(data) = Size`; under
that invariant `Marshal` serializes a record as the 6 header bytes
followed by the data verbatim. -/
lemma marshalOp_eq (p : OpPayload) (h : p.data.length = p.size) :
    marshalOp p = [p.opCode / 256 % 256, p.opCode % 256, p.size / 2 ^ 24 % 256,
      p.size / 2 ^ 16 % 256, p.size / 256 % 256, p.size % 256] ++ p.data := by
  have h1 : p.data.take p.size = p.data := by
    rw [← h]
    exact List.take_length _
  have h2 : p.size - p.data.length = 0 := by omega
  rw [marshalOp, h1, h2]
  simp

/-- Folding `AddOperation` over (opCode, data) pairs appends the
corresponding records. -/
lemma foldl_AddOperation_pairs (ops : List (Nat × List Nat)) :
    ∀ m0 : Message,
      ops.foldl (fun m cd => AddOperation m cd.1 cd.2) m0 =
        ⟨m0.version, m0.instanceId,
          m0.payload ++ ops.map (fun cd => ⟨cd.1, cd.2.length % 2 ^ 32, cd.2⟩)⟩ := by
  induction ops with
  | nil => intro m0; simp
  | cons cd rest ih =>
      intro m0
      rw [List.foldl_cons, ih]
      simp [AddOperation]

/-- Folding the `AddOperation` calls that `Unmarshal` makes for a list of
parsed payloads. -/
lemma foldl_AddOperation_payload (ps : List OpPayload) :
    ∀ m0 : Message,
      ps.foldl (fun m p => AddOperation m p.opCode p.data) m0 =
        ⟨m0.version, m0.instanceId,
          m0.payload ++ ps.map (fun p => ⟨p.opCode, p.data.length % 2 ^ 32, p.data⟩)⟩ := by
  induction ps with
  | nil => intro m0; simp
  | cons p rest ih =>
      intro m0
      rw [List.foldl_cons, ih]
      simp [AddOperation]

/-- The parsing loop of `Unmarshal`, run over the serialized records of a
list of well-formed payloads (opCode a uint16, size a uint32 equal to the
data length), reconstructs exactly the `AddOperation` calls that built
them. -/
lemma opsLoopF_parse (data : List Nat) (ps : List OpPayload)
    (hps : ∀ p ∈ ps, p.opCode < 65536 ∧ p.size < 2 ^ 32 ∧ p.data.length = p.size) :
    ∀ fuel iter m, data.drop iter = (ps.map marshalOp).flatten →
      iter ≤ data.length → data.length < iter + fuel →
      opsLoopF data fuel iter m =
        OpsResult.ok (ps.foldl (fun m p => AddOperation m p.opCode p.data) m) := by
  induction ps with
  | nil =>
      intro fuel iter m hdrop hle hfuel
      have hiter : data.length ≤ iter := by
        have := congrArg List.length hdrop
        simp at this
        omega
      cases fuel with
      | zero => omega
      | succ f =>
          rw [opsLoopF, if_neg (by omega)]
          simp
  | cons p rest ih =>
      intro fuel iter m hdrop hle hfuel
      obtain ⟨hcode, hsize, hdl⟩ := hps p (List.mem_cons_self p rest)
      have hmop := marshalOp_eq p hdl
      have hdrop' : data.drop iter =
          ([p.opCode / 256 % 256, p.opCode % 256, p.size / 2 ^ 24 % 256,
            p.size / 2 ^ 16 % 256, p.size / 256 % 256, p.size % 256] ++ p.data) ++
            ((rest.map marshalOp).flatten) := by
        rw [hdrop, List.map_cons, List.flatten_cons, hmop]
      have hlen6 : (data.drop iter).length =
          6 + p.size + ((rest.map marshalOp).flatten).length := by
        rw [hdrop']
        simp
        omega
      have hlendata : data.length =
          iter + 6 + p.size + ((rest.map marshalOp).flatten).length := by
        rw [List.length_drop] at hlen6
        omega
      cases fuel with
      | zero => omega
      | succ f =>
          rw [opsLoopF, if_pos (by omega), if_neg (by omega)]
          simp only
          have hb : ∀ k, byteAt data (iter + k) = byteAt
              (([p.opCode / 256 % 256, p.opCode % 256, p.size / 2 ^ 24 % 256,
                p.size / 2 ^ 16 % 256, p.size / 256 % 256, p.size % 256] ++ p.data) ++
                ((rest.map marshalOp).flatten)) k := by
            intro k
            rw [byteAt_drop, hdrop']
          have hb0 : byteAt data (iter + 0) = p.opCode / 256 % 256 := hb 0
          have hbplain : byteAt data iter = p.opCode / 256 % 256 := by
            have h0 : iter + 0 = iter := rfl
            rw [h0] at hb0
            exact hb0
          have hb1 : byteAt data (iter + 1) = p.opCode % 256 := hb 1
          have hb2 : byteAt data (iter + 2) = p.size / 2 ^ 24 % 256 := hb 2
          have hb3 : byteAt data (iter + 3) = p.size / 2 ^ 16 % 256 := hb 3
          have hb4 : byteAt data (iter + 4) = p.size / 256 % 256 := hb 4
          have hb5 : byteAt data (iter + 5) = p.size % 256 := hb 5
          rw [hbplain, hb1, hb2, hb3, hb4, hb5]
          have hcode' : p.opCode % 256 + p.opCode / 256 % 256 * 256 = p.opCode := by
            omega
          have hsize' : p.size % 256 + p.size / 256 % 256 * 256 +
              p.size / 2 ^ 16 % 256 * 65536 + p.size / 2 ^ 24 % 256 * 16777216 =
              p.size := by omega
          rw [hcode', hsize']
          rw [if_neg (by omega)]
          have hslice : (data.drop (iter + 6)).take p.size = p.data := by
            have hdd : data.drop (iter + 6) =
                p.data ++ (rest.map marshalOp).flatten := by
              have h1 : data.drop (iter + 6) = (data.drop iter).drop 6 := by
                rw [List.drop_drop]
              rw [h1, hdrop']
              rw [List.drop_append_of_le_length (by simp)]
              simp
            rw [hdd, List.take_append_of_le_length (by omega), ← hdl,
              List.take_length]
          rw [hslice]
          have hrest : data.drop (iter + 6 + p.size) = (rest.map marshalOp).flatten := by
            have h1 : data.drop (iter + 6 + p.size) = (data.drop (iter + 6)).drop p.size := by
              rw [List.drop_drop]
            have hdd : data.drop (iter + 6) =
                p.data ++ (rest.map marshalOp).flatten := by
              have h2 : data.drop (iter + 6) = (data.drop iter).drop 6 := by
                rw [List.drop_drop]
              rw [h2, hdrop']
              rw [List.drop_append_of_le_length (by simp)]
              simp
            rw [h1, hdd, ← hdl, List.drop_left]
          rw [ih (fun q hq => hps q (List.mem_cons_of_mem _ hq)) f (iter + 6 + p.size)
            (AddOperation m p.opCode p.data) hrest (by omega) (by omega)]
          rw [List.foldl_cons]

lemma map_mk_payload (ps : List OpPayload)
    (hps : ∀ p ∈ ps, p.data.length = p.size ∧ p.size < 2 ^ 32) :
    ps.map (fun p => (⟨p.opCode, p.data.length % 2 ^ 32, p.data⟩ : OpPayload)) = ps := by
  induction ps with
  | nil => rfl
  | cons p rest ih =>
      obtain ⟨h1, h2⟩ := hps p (List.mem_cons_self _ _)
      simp only [List.map_cons]
      rw [ih (fun q hq => hps q (List.mem_cons_of_mem _ hq))]
      have hsz : p.data.length % 2 ^ 32 = p.size := by omega
      rw [hsz]

/-- Unmarshalling the exact `Marshal` bytes of a well-formed message bound
to the same context reconstructs the envelope fields and payload list. -/
lemma Unmarshal_marshal_bytes (a : AirGap) (m : Message)
    (hv : m.version = a.version) (hidm : m.instanceId = a.instanceId)
    (hid : a.instanceId.length = 33)
    (hps : ∀ p ∈ m.payload, p.opCode < 65536 ∧ p.size < 2 ^ 32 ∧ p.data.length = p.size)
    (dec : Option (List Nat → Option (List Nat))) (input : List Nat)
    (hstage : decryptStage dec input =
      some (m.version :: (m.instanceId ++ (m.payload.map marshalOp).flatten))) :
    Unmarshal dec a input =
      UnmarshalResult.ok ⟨a.version, a.instanceId, m.payload⟩ := by
  have hlen : 34 ≤ (m.version :: (m.instanceId ++ (m.payload.map marshalOp).flatten)).length := by
    simp [hidm, hid]
  have hv0 : byteAt (m.version :: (m.instanceId ++ (m.payload.map marshalOp).flatten)) 0 =
      a.version := by
    rw [← hv]
    rfl
  have hinst : ((m.version :: (m.instanceId ++ (m.payload.map marshalOp).flatten)).drop 1).take 33 =
      a.instanceId := by
    rw [List.drop_one, List.tail_cons, hidm, List.take_left' hid]
  have hdrop34 : (m.version :: (m.instanceId ++ (m.payload.map marshalOp).flatten)).drop 34 =
      (m.payload.map marshalOp).flatten := by
    rw [show (34 : Nat) = 33 + 1 from rfl, List.drop_succ_cons, hidm, ← hid,
      List.drop_left]
  have hloop := opsLoopF_parse
    (m.version :: (m.instanceId ++ (m.payload.map marshalOp).flatten)) m.payload hps
    ((m.version :: (m.instanceId ++ (m.payload.map marshalOp).flatten)).length + 1)
    34 (CreateMessage a) hdrop34 (by omega) (by omega)
  rw [Unmarshal, hstage]
  simp only
  rw [if_neg (by omega), hv0, hinst]
  rw [if_neg (by omega), if_neg (by omega), if_neg (by simp)]
  rw [hloop, foldl_AddOperation_payload]
  simp only [CreateMessage, List.nil_append]
  rw [map_mk_payload m.payload (fun p hp => ⟨(hps p hp).2.2, (hps p hp).2.1⟩)]

/-- C8 (confirmed): building a message from a list of (opCode, data)
operations, marshaling it (with no encryption capability, or with a
capability whose `Decrypt` inverts its `Encrypt`), and unmarshaling under
the same version and instance id yields back exactly the built message:
same operation list, in order, with `size = len(data)`.  The operations
must be well-formed for their Go types (`opCode` a uint16, data length a
uint32) and the instance id must be the 33 bytes that `NewAirGap`
enforces. -/
theorem c8_envelope_roundtrip (a : AirGap) (ops : List (Nat × List Nat))
    (hid : a.instanceId.length = 33)
    (hops : ∀ cd ∈ ops, cd.1 < 65536 ∧ cd.2.length < 2 ^ 32) :
    (∀ blob,
      Marshal none (ops.foldl (fun m cd => AddOperation m cd.1 cd.2) (CreateMessage a)) =
        some blob →
      Unmarshal none a blob =
        UnmarshalResult.ok
          (ops.foldl (fun m cd => AddOperation m cd.1 cd.2) (CreateMessage a))) ∧
    (∀ e d ct, (∀ x y, e x = some y → d y = some x) →
      Marshal (some e)
          (ops.foldl (fun m cd => AddOperation m cd.1 cd.2) (CreateMessage a)) =
        some ct →
      Unmarshal (some d) a ct =
        UnmarshalResult.ok
          (ops.foldl (fun m cd => AddOperation m cd.1 cd.2) (CreateMessage a))) := by
  have hm' : ops.foldl (fun m cd => AddOperation m cd.1 cd.2) (CreateMessage a) =
      ⟨a.version, a.instanceId,
        ops.map (fun cd => ⟨cd.1, cd.2.length % 2 ^ 32, cd.2⟩)⟩ := by
    rw [foldl_AddOperation_pairs]
    rfl
  have hps : ∀ p ∈ (ops.foldl (fun m cd => AddOperation m cd.1 cd.2) (CreateMessage a)).payload,
      p.opCode < 65536 ∧ p.size < 2 ^ 32 ∧ p.data.length = p.size := by
    rw [hm']
    intro p hp
    simp only [List.mem_map] at hp
    obtain ⟨cd, hcd, rfl⟩ := hp
    obtain ⟨h1, h2⟩ := hops cd hcd
    exact ⟨h1, by dsimp only; omega, by dsimp only; omega⟩
  have hversion : (ops.foldl (fun m cd => AddOperation m cd.1 cd.2) (CreateMessage a)).version =
      a.version := by rw [hm']
  have hinstm : (ops.foldl (fun m cd => AddOperation m cd.1 cd.2) (CreateMessage a)).instanceId =
      a.instanceId := by rw [hm']
  have hresult : UnmarshalResult.ok
      (⟨a.version, a.instanceId,
        (ops.foldl (fun m cd => AddOperation m cd.1 cd.2) (CreateMessage a)).payload⟩ : Message) =
      UnmarshalResult.ok (ops.foldl (fun m cd => AddOperation m cd.1 cd.2) (CreateMessage a)) := by
    rw [hm']
  constructor
  · intro blob hMar
    rw [Marshal] at hMar
    have hblob : blob =
        (ops.foldl (fun m cd => AddOperation m cd.1 cd.2) (CreateMessage a)).version ::
          ((ops.foldl (fun m cd => AddOperation m cd.1 cd.2) (CreateMessage a)).instanceId ++
            (((ops.foldl (fun m cd => AddOperation m cd.1 cd.2) (CreateMessage a)).payload.map
              marshalOp).flatten)) :=
      (Option.some_inj.mp hMar).symm
    have hrt := Unmarshal_marshal_bytes a
      (ops.foldl (fun m cd => AddOperation m cd.1 cd.2) (CreateMessage a))
      hversion hinstm hid hps none blob (by rw [decryptStage, hblob])
    rw [hrt]
    exact hresult
  · intro e d ct hinv hMar
    rw [Marshal] at hMar
    have hdct := hinv _ _ hMar
    have hrt := Unmarshal_marshal_bytes a
      (ops.foldl (fun m cd => AddOperation m cd.1 cd.2) (CreateMessage a))
      hversion hinstm hid hps (some d) ct (by rw [decryptStage]; exact hdct)
    rw [hrt]
    exact hresult

/-- C8 witness: the concrete operation lists of the reference test
(opCodes 1, 1000, 65535), marshaled without a capability and — for a
single-operation message — through an invertible byte-shift capability,
then unmarshaled. -/
theorem c8_envelope_roundtrip_witness :
    Unmarshal none ⟨1, List.replicate 33 0⟩
        (1 :: (List.replicate 33 0 ++
          [0, 1, 0, 0, 0, 1, 97, 3, 232, 0, 0, 0, 2, 98, 98,
           255, 255, 0, 0, 0, 3, 99, 99, 99])) =
      UnmarshalResult.ok
        ([((1 : Nat), [(97 : Nat)]), (1000, [98, 98]), (65535, [99, 99, 99])].foldl
          (fun m cd => AddOperation m cd.1 cd.2) (CreateMessage ⟨1, List.replicate 33 0⟩)) ∧
    Unmarshal (some (fun y => some (y.map (· - 1)))) ⟨1, List.replicate 33 0⟩
        (2 :: (List.replicate 33 1 ++ [1, 2, 1, 1, 1, 2, 98])) =
      UnmarshalResult.ok
        ([((1 : Nat), [(97 : Nat)])].foldl
          (fun m cd => AddOperation m cd.1 cd.2) (CreateMessage ⟨1, List.replicate 33 0⟩)) :=
  ⟨(c8_envelope_roundtrip ⟨1, List.replicate 33 0⟩ _ (by decide) (by decide)).1 _
      (by decide),
   (c8_envelope_roundtrip ⟨1, List.replicate 33 0⟩ _ (by decide) (by decide)).2
      (fun x => some (x.map (· + 1))) (fun y => some (y.map (· - 1))) _
      (by
        intro x y h
        obtain rfl : x.map (· + 1) = y := Option.some_inj.mp h
        simp only [List.map_map]
        have hc : ((fun x => x - 1) ∘ fun x => x + 1) = fun x : Nat => x := by
          funext b
          simp
        rw [hc, List.map_id'])
      (by decide)⟩

/-! ## Claim C1: split / serialize / permute / reassemble round-trip

Infrastructure: `msgChunks P step` is the `Chunks` value `SetData`
produces when the compressed bytes split into the windows `P` (at most
65535 of them) with payload capacity `step`; `frameOf P step i` is its
`i`-th serialized frame.  `FillingInv` is the reassembly invariant: the
receiving buffer has the message's count, a full-length table, and every
filled slot holds exactly the corresponding window. -/

def msgChunks (P : List (List Nat)) (step : Nat) : Chunks :=
  ⟨P.length, step, P.map some⟩

def frameOf (P : List (List Nat)) (step : Nat) (i : Nat) : String :=
  String.mk (encodeB64 (getChunkWithHeader (msgChunks P step) i))

def FillingInv (P : List (List Nat)) (S : Chunks) : Prop :=
  S.count = P.length ∧ S.data.length = P.length ∧
    ∀ j, j < P.length →
      S.data.getD j none = none ∨ S.data.getD j none = some (P.getD j [])

lemma getD_mem {α : Type} (P : List α) (i : Nat) (h : i < P.length) (d : α) :
    P.getD i d ∈ P := by
  rw [List.getD_eq_getElem?_getD, List.getElem?_eq_getElem h]
  exact List.getElem_mem h

lemma getD_map_some (P : List (List Nat)) (i : Nat) (h : i < P.length) :
    (P.map some).getD i none = some (P.getD i []) := by
  rw [List.getD_eq_getElem?_getD, List.getElem?_map, List.getD_eq_getElem?_getD,
    List.getElem?_eq_getElem h]
  rfl

lemma getD_none_of_le {α : Type} (l : List (Option α)) (j : Nat)
    (h : l.length ≤ j) : l.getD j none = none := by
  rw [List.getD_eq_getElem?_getD, List.getElem?_eq_none h]
  rfl

/-- The range-indexed read-out of a list is the list itself. -/
lemma map_getD_range {α : Type} (L : List α) (d : α) :
    (List.range L.length).map (fun i => L.getD i d) = L := by
  induction L with
  | nil => rfl
  | cons a t ih =>
      rw [List.length_cons, List.range_succ_eq_map, List.map_cons, List.map_map]
      have hcomp : ((fun i => (a :: t).getD i d) ∘ (· + 1)) = fun i => t.getD i d := by
        funext i
        rfl
      rw [hcomp, ih]
      rfl

/-- The wire form of frame `i` of a split message: 6-byte header, the
window bytes, zero padding up to the payload capacity. -/
lemma wire_eq (P : List (List Nat)) (step i : Nat) (hi : i < P.length)
    (hc : ∀ c ∈ P, c.length ≤ step) :
    getChunkWithHeader (msgChunks P step) i =
      ([i % 256, i / 256 % 256, P.length % 256, P.length / 256 % 256,
        (P.getD i []).length % 256, (P.getD i []).length / 256 % 256]
        ++ P.getD i []) ++ List.replicate (step - (P.getD i []).length) 0 := by
  have hle : (P.getD i []).length ≤ step := hc _ (getD_mem P i hi [])
  rw [getChunkWithHeader]
  simp only [msgChunks]
  rw [getD_map_some P i hi]
  simp only [Option.getD_some]
  rw [List.take_of_length_le hle]

lemma wire_length (P : List (List Nat)) (step i : Nat) (hi : i < P.length)
    (hc : ∀ c ∈ P, c.length ≤ step) :
    (getChunkWithHeader (msgChunks P step) i).length = 6 + step := by
  have hle : (P.getD i []).length ≤ step := hc _ (getD_mem P i hi [])
  rw [wire_eq P step i hi hc]
  simp only [List.length_append, List.length_replicate, List.length_cons,
    List.length_nil]
  omega

lemma wire_bytes (P : List (List Nat)) (step i : Nat) (hi : i < P.length)
    (hc : ∀ c ∈ P, c.length ≤ step) (hB : ∀ c ∈ P, ∀ x ∈ c, x < 256) :
    ∀ x ∈ getChunkWithHeader (msgChunks P step) i, x < 256 := by
  intro x hx
  rw [wire_eq P step i hi hc] at hx
  simp only [List.mem_append, List.mem_cons, List.not_mem_nil] at hx
  rcases hx with (h | h) | h
  · rcases h with h | h | h | h | h | h | h
    · omega
    · omega
    · omega
    · omega
    · omega
    · omega
    · cases h
  · exact hB _ (getD_mem P i hi []) x h
  · rw [List.eq_of_mem_replicate h]
    omega

/-- Decoding frame `i` recovers its wire bytes. -/
lemma decode_frameOf (P : List (List Nat)) (step i : Nat) (hi : i < P.length)
    (hc : ∀ c ∈ P, c.length ≤ step) (hB : ∀ c ∈ P, ∀ x ∈ c, x < 256) :
    decodeB64 (frameOf P step i).data =
      some (getChunkWithHeader (msgChunks P step) i) := by
  rw [frameOf]
  exact decode_encode _ (wire_bytes P step i hi hc hB)

lemma wire_le16_0 (P : List (List Nat)) (step i : Nat) (hi : i < P.length)
    (hc : ∀ c ∈ P, c.length ≤ step) (hN : P.length ≤ 65535) :
    le16 (getChunkWithHeader (msgChunks P step) i) 0 = i := by
  rw [wire_eq P step i hi hc]
  show i % 256 + i / 256 % 256 * 256 = i
  omega

lemma wire_le16_2 (P : List (List Nat)) (step i : Nat) (hi : i < P.length)
    (hc : ∀ c ∈ P, c.length ≤ step) (hN : P.length ≤ 65535) :
    le16 (getChunkWithHeader (msgChunks P step) i) 2 = P.length := by
  rw [wire_eq P step i hi hc]
  show P.length % 256 + P.length / 256 % 256 * 256 = P.length
  omega

lemma wire_le16_4 (P : List (List Nat)) (step i : Nat) (hi : i < P.length)
    (hc : ∀ c ∈ P, c.length ≤ step) (hstep : step < 65536) :
    le16 (getChunkWithHeader (msgChunks P step) i) 4 = (P.getD i []).length := by
  have hle : (P.getD i []).length ≤ step := hc _ (getD_mem P i hi [])
  rw [wire_eq P step i hi hc]
  show (P.getD i []).length % 256 + (P.getD i []).length / 256 % 256 * 256 =
    (P.getD i []).length
  omega

/-- The payload carried by frame `i`: bytes 6 through `6 + size`. -/
lemma wire_payload (P : List (List Nat)) (step i : Nat) (hi : i < P.length)
    (hc : ∀ c ∈ P, c.length ≤ step) :
    ((getChunkWithHeader (msgChunks P step) i).drop 6).take (P.getD i []).length =
      P.getD i [] := by
  rw [wire_eq P step i hi hc, List.append_assoc]
  rw [List.drop_append_of_le_length (by simp)]
  rw [show ([i % 256, i / 256 % 256, P.length % 256, P.length / 256 % 256,
    (P.getD i []).length % 256, (P.getD i []).length / 256 % 256] : List Nat).drop 6 = []
    from rfl]
  rw [List.nil_append, List.take_append_of_le_length (le_refl _), List.take_length]

/-- Distinct indices give distinct frames (the index is recoverable from
the frame). -/
lemma frameOf_inj (P : List (List Nat)) (step i j : Nat) (hi : i < P.length)
    (hj : j < P.length) (hc : ∀ c ∈ P, c.length ≤ step)
    (hB : ∀ c ∈ P, ∀ x ∈ c, x < 256) (hN : P.length ≤ 65535)
    (h : frameOf P step i = frameOf P step j) : i = j := by
  have hdi := decode_frameOf P step i hi hc hB
  have hdj := decode_frameOf P step j hj hc hB
  rw [h, hdj] at hdi
  have hwire := Option.some_inj.mp hdi
  have h0j := wire_le16_0 P step j hj hc hN
  have h0i := wire_le16_0 P step i hi hc hN
  rw [hwire] at h0j
  rw [h0i] at h0j
  exact h0j

/-- Reading frame `i` from a buffer in the filling state succeeds, fills
slot `i` with window `i` (or leaves it, already holding exactly that), and
touches no other slot. -/
lemma read_frame_step (P : List (List Nat)) (step : Nat) (S : Chunks)
    (hN : P.length ≤ 65535) (hstep : step < 65536)
    (hc : ∀ c ∈ P, c.length ≤ step) (hB : ∀ c ∈ P, ∀ x ∈ c, x < 256)
    (i : Nat) (hi : i < P.length) (hInv : FillingInv P S) :
    ∃ S' w, ReadB64Chunk S (frameOf P step i) = ReadResult.ok S' w ∧
      FillingInv P S' ∧
      S'.data.getD i none = some (P.getD i []) ∧
      ∀ j, j ≠ i → S'.data.getD j none = S.data.getD j none := by
  obtain ⟨hcnt, hlen, hslots⟩ := hInv
  have hdec := decode_frameOf P step i hi hc hB
  have hwl := wire_length P step i hi hc
  have h0 := wire_le16_0 P step i hi hc hN
  have h4 := wire_le16_4 P step i hi hc hstep
  have hple : (P.getD i []).length ≤ step := hc _ (getD_mem P i hi [])
  have hScnt : S.count ≠ 0 := by omega
  rw [ReadB64Chunk, hdec]
  simp only
  rw [if_neg (show ¬(S.count = 0 ∧
    (getChunkWithHeader (msgChunks P step) i).length < 4) from fun hh => hScnt hh.1)]
  rw [if_neg hScnt]
  rw [if_neg (show ¬(getChunkWithHeader (msgChunks P step) i).length < 2 by omega)]
  rw [if_neg (show ¬(getChunkWithHeader (msgChunks P step) i).length < 6 by omega)]
  rw [h0, h4]
  rw [if_pos (show i < S.data.length by omega)]
  cases hslot : S.data.getD i none with
  | some p =>
      refine ⟨S, false, rfl, ⟨hcnt, hlen, hslots⟩, ?_, fun j _ => rfl⟩
      rcases hslots i hi with hnone | hsome
      · rw [hslot] at hnone
        cases hnone
      · exact hsome
  | none =>
      rw [if_neg (show ¬(getChunkWithHeader (msgChunks P step) i).length <
        6 + (P.getD i []).length by omega)]
      rw [wire_payload P step i hi hc]
      refine ⟨_, true, rfl, ?_, ?_, ?_⟩
      · refine ⟨hcnt, by simpa using hlen, ?_⟩
        intro j hj
        by_cases hji : j = i
        · subst hji
          right
          exact getD_set_self _ _ _ (by omega)
        · rw [List.getD_eq_getElem?_getD,
            List.getElem?_set_ne (fun hh => hji hh.symm),
            ← List.getD_eq_getElem?_getD]
          exact hslots j hj
      · exact getD_set_self _ _ _ (by omega)
      · intro j hji
        rw [List.getD_eq_getElem?_getD,
          List.getElem?_set_ne (fun hh => hji hh.symm),
          ← List.getD_eq_getElem?_getD]

/-- The first `ReadB64Chunk` on a fresh buffer behaves exactly like a read
on the buffer whose count and empty table the first frame just fixed. -/
lemma ReadB64Chunk_fresh_eq (P : List (List Nat)) (step i : Nat)
    (hi : i < P.length) (hN : P.length ≤ 65535)
    (hc : ∀ c ∈ P, c.length ≤ step) (hB : ∀ c ∈ P, ∀ x ∈ c, x < 256)
    (hne : P.length ≠ 0) :
    ReadB64Chunk NewChunks (frameOf P step i) =
      ReadB64Chunk ⟨P.length, 0, List.replicate P.length none⟩ (frameOf P step i) := by
  have hdec := decode_frameOf P step i hi hc hB
  have hwl := wire_length P step i hi hc
  have h2 := wire_le16_2 P step i hi hc hN
  rw [ReadB64Chunk, ReadB64Chunk, hdec]
  simp only [NewChunks, true_and, if_true]
  rw [if_neg (show ¬(getChunkWithHeader (msgChunks P step) i).length < 4 by omega)]
  rw [if_neg (show ¬(P.length = 0 ∧
    (getChunkWithHeader (msgChunks P step) i).length < 4) from fun hh => hne hh.1)]
  rw [if_neg hne, h2]

/-- Feeding any list of message frames into a buffer in the filling state
succeeds, preserves the invariant, never unfills a slot, and fills the
slot of every frame fed. -/
lemma feedAll_inv (P : List (List Nat)) (step : Nat)
    (hN : P.length ≤ 65535) (hstep : step < 65536)
    (hc : ∀ c ∈ P, c.length ≤ step) (hB : ∀ c ∈ P, ∀ x ∈ c, x < 256) :
    ∀ (L : List String) (S : Chunks), FillingInv P S →
      (∀ f ∈ L, ∃ k, k < P.length ∧ f = frameOf P step k) →
      ∃ S', feedAll S L = some S' ∧ FillingInv P S' ∧
        (∀ j p, S.data.getD j none = some p → S'.data.getD j none = some p) ∧
        (∀ k, k < P.length → frameOf P step k ∈ L →
          S'.data.getD k none = some (P.getD k [])) := by
  intro L
  induction L with
  | nil =>
      intro S hS _
      exact ⟨S, rfl, hS, fun j p h => h,
        fun k _ hmem => absurd hmem (List.not_mem_nil _)⟩
  | cons f rest ih =>
      intro S hS hall
      obtain ⟨k, hk, rfl⟩ := hall f (List.mem_cons_self _ _)
      obtain ⟨S1, w, hread, hS1, hslot1, hother⟩ :=
        read_frame_step P step S hN hstep hc hB k hk hS
      obtain ⟨S', hfeed, hS', hmono, hfill⟩ :=
        ih S1 hS1 (fun g hg => hall g (List.mem_cons_of_mem _ hg))
      refine ⟨S', ?_, hS', ?_, ?_⟩
      · rw [feedAll, hread]
        exact hfeed
      · intro j p hj
        apply hmono
        by_cases hjk : j = k
        · subst hjk
          rw [hslot1]
          have hjlt : j < P.length := by
            by_contra hge
            rw [getD_none_of_le S.data j (by omega)] at hj
            cases hj
          rcases hS.2.2 j hjlt with hnone | hsome
          · rw [hj] at hnone
            cases hnone
          · rw [hj] at hsome
            exact hsome.symm
        · rw [hother j hjk]
          exact hj
      · intro k' hk' hmem
        rcases List.mem_cons.mp hmem with heq | hmem'
        · have hkk : k' = k := frameOf_inj P step k' k hk' hk hc hB hN heq
          subst hkk
          exact hmono _ _ hslot1
        · exact hfill k' hk' hmem'

/-- C1 counterexample: the claim quantifies over "valid chunk capacities
`s` in `[6, 65535]`", but splitting at capacity 65535 does not produce
chunks at all — `SetData` rejects it (the code's accepted band ends at
65530), so the round trip fails there (compressor: identity; input:
empty). -/
theorem c1_counterexample :
    (¬∃ ch, SetData (fun l => l) ([] : List Nat) 65535 = SetDataResult.ok ch) ∧
    SetData (fun l => l) ([] : List Nat) 65535 =
      SetDataResult.err "max chunk size 65531" := by
  constructor
  · rintro ⟨ch, hch⟩
    rw [show SetData (fun l => l) ([] : List Nat) 65535 =
      SetDataResult.err "max chunk size 65531" from rfl] at hch
    cases hch
  · rfl

/-- C1 (amended): for every byte sequence `b` and chunk capacity `s` in
`[7, 65530]` (not `[6, 65535]`: 65531–65535 are rejected and 6 makes the
splitter loop forever), provided the split produces at most 65535 chunks
(beyond that the uint16 chunk count overflows and frames are lost) and
the external compressor satisfies its contract
(`uncompress (compress b) = some b`, byte-valued output), splitting `b`,
serializing, feeding the frames to a fresh buffer in any permutation and
reading `Data()` returns exactly `b` (and the buffer reports ready). -/
theorem c1_split_permute_reassemble (compress : List Nat → List Nat)
    (uncompress : List Nat → Option (List Nat)) (b : List Nat) (s : Nat)
    (hinv : uncompress (compress b) = some b)
    (hbytes : ∀ x ∈ compress b, x < 256)
    (ch : Chunks) (hset : SetData compress b s = SetDataResult.ok ch)
    (hsmall : ch.data.length ≤ 65535)
    (frames : List String) (hperm : frames.Perm (SerializeB64 ch)) :
    ∃ ch', feedAll NewChunks frames = some ch' ∧ IsReady ch' = true ∧
      Data uncompress ch' = b := by
  rw [SetData] at hset
  by_cases h6 : s < 6
  · rw [if_pos h6] at hset
    cases hset
  · rw [if_neg h6] at hset
    by_cases h65 : s > 65530
    · rw [if_pos h65] at hset
      cases hset
    · rw [if_neg h65] at hset
      simp only at hset
      cases hsplit : splitLoop ((compress b).length + 1) (s - 6) (compress b) with
      | none =>
          rw [hsplit] at hset
          cases hset
      | some P =>
          rw [hsplit] at hset
          have hch : ch = ⟨P.length % 65536, (s - 6) % 65536, P.map some⟩ := by
            cases hset
            rfl
          subst hch
          have hN : P.length ≤ 65535 := by
            simpa using hsmall
          have hstep : s - 6 < 65536 := by omega
          obtain ⟨hfl, hsound⟩ := splitLoop_sound (s - 6) _ _ _ hsplit
          have hc : ∀ c ∈ P, c.length ≤ s - 6 := fun c hcmem => (hsound c hcmem).1
          have hB : ∀ c ∈ P, ∀ x ∈ c, x < 256 := fun c hcmem x hx =>
            hbytes x ((hsound c hcmem).2 x hx)
          have hmod1 : P.length % 65536 = P.length := by omega
          have hmod2 : (s - 6) % 65536 = s - 6 := by omega
          have hchm : (⟨P.length % 65536, (s - 6) % 65536, P.map some⟩ : Chunks) =
              msgChunks P (s - 6) := by
            rw [msgChunks, hmod1, hmod2]
          rw [hchm] at hperm
          have hser : SerializeB64 (msgChunks P (s - 6)) =
              (List.range P.length).map (frameOf P (s - 6)) := rfl
          rw [hser] at hperm
          by_cases hN0 : P.length = 0
          · have hPnil : P = [] := List.length_eq_zero.mp hN0
            subst hPnil
            have hfe : frames = [] := by
              simpa using hperm
            subst hfe
            refine ⟨NewChunks, rfl, rfl, ?_⟩
            have hcs : concatSlots NewChunks = [] := rfl
            have hcb : compress b = [] := by
              simpa using hfl.symm
            rw [Data, hcs, ← hcb, hinv]
            rfl
          · cases hframes : frames with
            | nil =>
                exfalso
                have := hperm.length_eq
                rw [hframes] at this
                simp at this
                omega
            | cons f rest =>
                subst hframes
                have hmemf : ∃ k, k < P.length ∧ f = frameOf P (s - 6) k := by
                  have hin : f ∈ (List.range P.length).map (frameOf P (s - 6)) :=
                    hperm.mem_iff.mp (List.mem_cons_self _ _)
                  obtain ⟨k, hkr, hfk⟩ := List.mem_map.mp hin
                  exact ⟨k, List.mem_range.mp hkr, hfk.symm⟩
                obtain ⟨k, hk, rfl⟩ := hmemf
                have hfresh := ReadB64Chunk_fresh_eq P (s - 6) k hk hN hc hB hN0
                have hInvInit : FillingInv P
                    ⟨P.length, 0, List.replicate P.length none⟩ := by
                  refine ⟨rfl, by simp, fun j hj => Or.inl (getD_replicate_none _ _)⟩
                obtain ⟨S1, w, hread, hS1, hslot1, hother⟩ :=
                  read_frame_step P (s - 6) ⟨P.length, 0, List.replicate P.length none⟩
                    hN hstep hc hB k hk hInvInit
                have hallrest : ∀ g ∈ rest, ∃ k', k' < P.length ∧
                    g = frameOf P (s - 6) k' := by
                  intro g hg
                  have hin : g ∈ (List.range P.length).map (frameOf P (s - 6)) :=
                    hperm.mem_iff.mp (List.mem_cons_of_mem _ hg)
                  obtain ⟨k', hkr, hfk⟩ := List.mem_map.mp hin
                  exact ⟨k', List.mem_range.mp hkr, hfk.symm⟩
                obtain ⟨S', hfeed, hS', hmono, hfill⟩ :=
                  feedAll_inv P (s - 6) hN hstep hc hB rest S1 hS1 hallrest
                have hfull : ∀ j, j < P.length →
                    S'.data.getD j none = some (P.getD j []) := by
                  intro j hj
                  have hmemj : frameOf P (s - 6) j ∈
                      frameOf P (s - 6) k :: rest := by
                    apply hperm.mem_iff.mpr
                    exact List.mem_map.mpr ⟨j, List.mem_range.mpr hj, rfl⟩
                  rcases List.mem_cons.mp hmemj with heq | hmem'
                  · have hjk := frameOf_inj P (s - 6) j k hj hk hc hB hN heq
                    subst hjk
                    exact hmono _ _ hslot1
                  · exact hfill j hj hmem'
                refine ⟨S', ?_, ?_, ?_⟩
                · rw [feedAll, hfresh, hread]
                  exact hfeed
                · rw [IsReady, hS'.1, hS'.2.1]
                  simp
                · have hconcat : concatSlots S' = P.flatten := by
                    rw [concatSlots, hS'.1]
                    congr 1
                    calc (List.range P.length).map
                          (fun i => (S'.data.getD i none).getD []) =
                        (List.range P.length).map (fun i => P.getD i []) := by
                          apply List.map_congr_left
                          intro i hi2
                          rw [hfull i (List.mem_range.mp hi2)]
                          rfl
                      _ = P := map_getD_range P []
                  rw [Data, hconcat, hfl, hinv]
                  rfl

/-- C1 witness: the two-byte message `[42, 43]` at capacity 7 splits into
two one-byte chunks; its two frames fed in REVERSED order still reassemble
to `[42, 43]` (identity compressor). -/
theorem c1_split_permute_reassemble_witness :
    ∃ ch', feedAll NewChunks
        [String.mk (encodeB64 [1, 0, 2, 0, 1, 0, 43]),
         String.mk (encodeB64 [0, 0, 2, 0, 1, 0, 42])] = some ch' ∧
      IsReady ch' = true ∧ Data some ch' = [42, 43] :=
  c1_split_permute_reassemble (fun l => l) some [42, 43] 7 rfl (by decide)
    ⟨2, 1, [some [42], some [43]]⟩ (by decide) (by decide) _ (by decide)

end GoAirgap
